import Mathlib

/-!
Verification development for `code/logistic_sgd.py`: multi-class logistic
regression trained by mini-batch stochastic gradient descent with an
adaptive-patience early-stopping loop.

The Python/Theano source is embedded shallowly over the exact reals:

* `softmax`, `p_y_given_x`, `y_pred`, `negative_log_likelihood`, `errors`
  embed the members of `class LogisticRegression`;
* `Dataset` / `SgdState` hold the shared arrays and the loop-local mutable
  scalars of `sgd_optimization_mnist`;
* `train_model`, `validate_model`, `test_model_eval`, `doValidation`,
  `iterBody`, `sgdLoop` embed the compiled Theano functions and the
  `for iter in xrange(n_iter * n_minibatches)` loop (the `break` of the
  source is the early exit of `sgdLoop`);
* `g_W` / `g_b` embed the compiled result of `T.grad(cost, W)` /
  `T.grad(cost, b)`; the gradient theorem below certifies that they are
  the partial derivatives of the cost.

Machine floats are idealised as real numbers; `float('inf')`
(the initial `best_validation_loss`) is modelled by `Option ℝ` with
`none` standing for plus infinity.
-/

namespace LogisticSgd

/-- `T.mean` / `numpy.mean` of a vector of reals: sum divided by length
(`(0:ℝ)/0 = 0` stands in for the empty mean). -/
noncomputable def Tmean {n : ℕ} (v : Fin n → ℝ) : ℝ := (∑ i, v i) / n

/-- One component of `T.nnet.softmax`: `exp (z k) / ∑ j, exp (z j)`. -/
noncomputable def softmax {K : ℕ} (z : Fin K → ℝ) (k : Fin K) : ℝ :=
  Real.exp (z k) / ∑ j, Real.exp (z j)

/-- Row `i` of the affine transform `T.dot(input, W) + b`. -/
noncomputable def zRow {n nIn K : ℕ} (x : Fin n → Fin nIn → ℝ)
    (W : Fin nIn → Fin K → ℝ) (b : Fin K → ℝ) (i : Fin n) (k : Fin K) : ℝ :=
  (∑ m, x i m * W m k) + b k

/-- `self.p_y_given_x = T.nnet.softmax(T.dot(input, self.W) + self.b)`:
row-wise softmax of the affine transform. -/
noncomputable def p_y_given_x {n nIn K : ℕ} (x : Fin n → Fin nIn → ℝ)
    (W : Fin nIn → Fin K → ℝ) (b : Fin K → ℝ) (i : Fin n) : Fin K → ℝ :=
  fun k => softmax (zRow x W b i) k

open Classical in
/-- Left-to-right scan keeping the current best index, replacing it only on a
strictly larger value: this is the first-occurrence-of-the-maximum semantics
of `numpy`/`theano` argmax. -/
noncomputable def argmaxAux {K : ℕ} (v : Fin K → ℝ) : Fin K → List (Fin K) → Fin K
  | cur, [] => cur
  | cur, j :: rest => argmaxAux v (if v cur < v j then j else cur) rest

/-- `T.argmax` over one row: scan all indices in increasing order starting
from index `0`. -/
noncomputable def argmax {K : ℕ} (v : Fin (K + 1) → ℝ) : Fin (K + 1) :=
  argmaxAux v 0 (List.finRange (K + 1))

/-- `self.y_pred = T.argmax(self.p_y_given_x, axis=1)`. -/
noncomputable def y_pred {n nIn K : ℕ} (x : Fin n → Fin nIn → ℝ)
    (W : Fin nIn → Fin (K + 1) → ℝ) (b : Fin (K + 1) → ℝ) (i : Fin n) :
    Fin (K + 1) :=
  argmax (p_y_given_x x W b i)

/-- `negative_log_likelihood`:
`-T.mean(T.log(self.p_y_given_x)[T.arange(y.shape[0]), y])`, stated for a
probability matrix `P` and a label vector `y`. -/
noncomputable def negative_log_likelihood {n K : ℕ} (P : Fin n → Fin K → ℝ)
    (y : Fin n → Fin K) : ℝ :=
  -(Tmean fun i => Real.log (P i (y i)))

/-- One-hot indicator: entry `k` of the one-hot encoding of label `y`. -/
noncomputable def oneHot {K : ℕ} (y k : Fin K) : ℝ := if y = k then 1 else 0

/-- The Theano dtypes that occur around `LogisticRegression.errors`. -/
inductive Dtype where
  | int32 | int64 | float32 | float64
  deriving DecidableEq

/-- `y.dtype.startswith('int')`. -/
def Dtype.isInt : Dtype → Bool
  | .int32 => true
  | .int64 => true
  | .float32 => false
  | .float64 => false

/-- The Python exceptions that `LogisticRegression.errors` can raise. -/
inductive PyError where
  | typeError | notImplementedError | nameError
  deriving DecidableEq

/-- `LogisticRegression.errors(y)`.  `y_ndim`/`y_dtype` are the symbolic type
of the argument `y`; `self.y_pred` has ndim 1.  When the checks pass the
result is `T.mean(T.neq(self.y_pred, y))`.

On the ndim mismatch branch the source executes
`raise TypeError('y should have ...', ('y', target.type, ...))`;
the name `target` is unbound in that scope, so Python raises a `NameError`
while evaluating the arguments, before any `TypeError` is constructed.  The
embedding records that actual behaviour. -/
noncomputable def errors {n : ℕ} (y_ndim : ℕ) (y_dtype : Dtype)
    (y_pred_data y_data : Fin n → ℤ) : Except PyError ℝ :=
  if y_ndim ≠ 1 then
    .error .nameError
  else if y_dtype.isInt then
    .ok (Tmean fun i => if y_pred_data i = y_data i then (0 : ℝ) else 1)
  else
    .error .notImplementedError

/-! ### Hyperparameters and dataset shape of `sgd_optimization_mnist` -/

/-- `batch_size = 500`. -/
def batch_size : ℕ := 500

/-- `n_in = 28*28`. -/
def n_in : ℕ := 28 * 28

/-- `n_out = 10`. -/
def n_out : ℕ := 10

instance : NeZero n_out := ⟨by decide⟩

instance : NeZero n_in := ⟨by decide⟩

instance : NeZero batch_size := ⟨by decide⟩

/-- `patience_increase = 2`. -/
def patience_increase : ℕ := 2

/-- `improvement_threshold = 0.995`. -/
noncomputable def improvement_threshold : ℝ := 0.995

/-- The three dataset splits, as in-memory arrays.  The feature arrays are
indexed by an unbounded row index (the source never reads past the rows that
exist; the batching theorem below locates every visited index below the
split size). -/
structure Dataset where
  nTrain : ℕ
  nValid : ℕ
  nTest : ℕ
  trainX : ℕ → Fin n_in → ℝ
  trainY : ℕ → Fin n_out
  validX : ℕ → Fin n_in → ℝ
  validY : ℕ → Fin n_out
  testX : ℕ → Fin n_in → ℝ
  testY : ℕ → Fin n_out

/-- `n_minibatches = train_set_x.value.shape[0] / batch_size`
(Python 2 integer division on ints, i.e. floor division). -/
def n_minibatches (d : Dataset) : ℕ := d.nTrain / batch_size

/-- `validation_frequency = n_minibatches`. -/
def validation_frequency (d : Dataset) : ℕ := n_minibatches d

/-- `n_valid_batches = valid_set_x.value.shape[0] / batch_size`. -/
def n_valid_batches (d : Dataset) : ℕ := d.nValid / batch_size

/-- `n_test_batches = test_set_x.value.shape[0] / batch_size`. -/
def n_test_batches (d : Dataset) : ℕ := d.nTest / batch_size

/-- The row indices of the validation split that the loop ever reads:
`validate_model(i * batch_size)` for `i < n_valid_batches` reads rows
`i * batch_size + j` for `j < batch_size`. -/
def visitedValidation (d : Dataset) (m : ℕ) : Prop :=
  ∃ i < n_valid_batches d, ∃ j < batch_size, m = i * batch_size + j

/-- The mutable state of `sgd_optimization_mnist`: the shared dataset
arrays, the model parameters `W`, `b`, and the early-stopping scalars.
`best` models `best_validation_loss` (`none` is the initial `float('inf')`).
`nUpdates` is a ghost counter of executed `train_model` calls, used to state
the temporal stopping property; the loop body increments it once per
iteration and nothing else touches it. -/
structure SgdState where
  data : Dataset
  W : Fin n_in → Fin n_out → ℝ
  b : Fin n_out → ℝ
  patience : ℕ
  best : Option ℝ
  testScore : ℝ
  nUpdates : ℕ

/-- `x < b` where `b` may be `float('inf')` (`none`). -/
def ltInf (x : ℝ) : Option ℝ → Prop
  | none => True
  | some v => x < v

/-- Multiply a possibly-infinite float by a (positive) real:
`inf * c = inf`. -/
def mulInf (b : Option ℝ) (c : ℝ) : Option ℝ := b.map fun v => v * c

/-- The training mini-batch of features starting at row `offset`. -/
noncomputable def trainBatchX (d : Dataset) (offset : ℕ) :
    Fin batch_size → Fin n_in → ℝ :=
  fun i m => d.trainX (offset + i) m

/-- The training mini-batch of labels starting at row `offset`. -/
def trainBatchY (d : Dataset) (offset : ℕ) : Fin batch_size → Fin n_out :=
  fun i => d.trainY (offset + i)

/-- Entry `(j, k)` of the compiled `T.grad(cost, classifier.W)`:
the closed form `(Xᵀ (P - Y_onehot) / batch_size)[j, k]`.  The gradient
theorem below proves that this is the partial derivative of
`negative_log_likelihood` in `W j k`. -/
noncomputable def g_W {n nIn K : ℕ} (x : Fin n → Fin nIn → ℝ)
    (y : Fin n → Fin K) (W : Fin nIn → Fin K → ℝ) (b : Fin K → ℝ)
    (j : Fin nIn) (k : Fin K) : ℝ :=
  (∑ i, x i j * (p_y_given_x x W b i k - oneHot (y i) k)) / n

/-- Entry `k` of the compiled `T.grad(cost, classifier.b)`: the column mean
of `P - Y_onehot`. -/
noncomputable def g_b {n nIn K : ℕ} (x : Fin n → Fin nIn → ℝ)
    (y : Fin n → Fin K) (W : Fin nIn → Fin K → ℝ) (b : Fin K → ℝ)
    (k : Fin K) : ℝ :=
  (∑ i, (p_y_given_x x W b i k - oneHot (y i) k)) / n

/-- The compiled `train_model(minibatch_offset)`: returns the cost computed
from the current parameter values and applies the updates
`W ← W - learning_rate * g_W`, `b ← b - learning_rate * g_b`. -/
noncomputable def train_model (learning_rate : ℝ) (s : SgdState)
    (offset : ℕ) : ℝ × SgdState :=
  let x := trainBatchX s.data offset
  let y := trainBatchY s.data offset
  ( negative_log_likelihood (p_y_given_x x s.W s.b) y,
    { s with
      W := fun j k => s.W j k - learning_rate * g_W x y s.W s.b j k,
      b := fun k => s.b k - learning_rate * g_b x y s.W s.b k } )

/-- The compiled `validate_model(minibatch_offset)`:
`classifier.errors(y)` on the validation slice starting at `offset`
(the ndim/dtype checks pass for the int vector `y`, so this is
`T.mean(T.neq(self.y_pred, y))`). -/
noncomputable def validate_model (s : SgdState) (offset : ℕ) : ℝ :=
  Tmean fun i : Fin batch_size =>
    if y_pred (K := 9) (fun i' m => s.data.validX (offset + i') m) s.W s.b i
        = s.data.validY (offset + i) then (0 : ℝ) else 1

/-- The compiled `test_model(minibatch_offset)`, analogous to
`validate_model` on the test split. -/
noncomputable def test_model (s : SgdState) (offset : ℕ) : ℝ :=
  Tmean fun i : Fin batch_size =>
    if y_pred (K := 9) (fun i' m => s.data.testX (offset + i') m) s.W s.b i
        = s.data.testY (offset + i) then (0 : ℝ) else 1

/-- `this_validation_loss = numpy.mean(validation_losses)` where
`validation_losses = [validate_model(i * batch_size) for i in
xrange(n_valid_batches)]`. -/
noncomputable def this_validation_loss (s : SgdState) : ℝ :=
  Tmean fun i : Fin (n_valid_batches s.data) => validate_model s (i * batch_size)

/-- `test_score = numpy.mean(test_losses)` over every test mini-batch. -/
noncomputable def test_score_eval (s : SgdState) : ℝ :=
  Tmean fun i : Fin (n_test_batches s.data) => test_model s (i * batch_size)

open Classical in
/-- The validation block guarded by `(iter+1) % validation_frequency == 0`:
compare to the best validation loss so far, when the relative improvement is
below `improvement_threshold` reassign `patience = max(patience, iter *
patience_increase)`, then record the new best and the test score of the new
best model.  (The test evaluation reads only the dataset and the parameters,
which the patience assignment does not touch, so both improvement branches
evaluate `test_score_eval` on the same model.) -/
noncomputable def doValidation (s : SgdState) (iter : ℕ) : SgdState :=
  if ltInf (this_validation_loss s) s.best then
    if ltInf (this_validation_loss s) (mulInf s.best improvement_threshold) then
      { s with patience := max s.patience (iter * patience_increase),
               best := some (this_validation_loss s),
               testScore := test_score_eval s }
    else
      { s with best := some (this_validation_loss s),
               testScore := test_score_eval s }
  else s

/-- The training step of one loop iteration: `train_model` at
`minibatch_offset = (iter % n_minibatches) * batch_size` (its returned cost
`cost_ij` is bound by the source but only printed), plus the ghost count of
executed updates. -/
noncomputable def trainStep (learning_rate : ℝ) (iter : ℕ) (s : SgdState) :
    SgdState :=
  { (train_model learning_rate s
      ((iter % n_minibatches s.data) * batch_size)).2 with
    nUpdates := s.nUpdates + 1 }

/-- One full iteration of the `for iter in xrange(...)` body: training step,
then the validation block when `(iter+1) % validation_frequency == 0`. -/
noncomputable def iterBody (learning_rate : ℝ) (iter : ℕ) (s : SgdState) :
    SgdState :=
  if (iter + 1) % validation_frequency s.data = 0 then
    doValidation (trainStep learning_rate iter s) iter
  else trainStep learning_rate iter s

/-- The training loop with its early exit: `fuel` iterations remain, the
next global index is `iter`; after each body the source runs
`if patience <= iter: break`. -/
noncomputable def sgdLoop (learning_rate : ℝ) :
    ℕ → ℕ → SgdState → SgdState
  | 0, _, s => s
  | fuel + 1, iter, s =>
    if (iterBody learning_rate iter s).patience ≤ iter then
      iterBody learning_rate iter s
    else sgdLoop learning_rate fuel (iter + 1) (iterBody learning_rate iter s)

/-- The loop without its early exit, used to name the state the source's
loop is in after `m` completed iterations. -/
noncomputable def pureRun (learning_rate : ℝ) :
    ℕ → ℕ → SgdState → SgdState
  | 0, _, s => s
  | m + 1, iter, s => pureRun learning_rate m (iter + 1) (iterBody learning_rate iter s)

/-- The state at the top of the loop: `W` and `b` are zero-initialised,
`patience = 5000`, `best_validation_loss = float('inf')`,
`test_score = 0.`. -/
noncomputable def initState (d : Dataset) : SgdState :=
  { data := d
    W := fun _ _ => 0
    b := fun _ => 0
    patience := 5000
    best := none
    testScore := 0
    nUpdates := 0 }

/-- `sgd_optimization_mnist(learning_rate, n_iter)` on dataset `d`: run the
loop for at most `n_iter * n_minibatches` iterations. -/
noncomputable def sgd_optimization_mnist (learning_rate : ℝ) (n_iter : ℕ)
    (d : Dataset) : SgdState :=
  sgdLoop learning_rate (n_iter * n_minibatches d) 0 (initState d)

/-- The state of the run after `m` completed iterations (ignoring the early
exit; the loop characterisation lemma relates the two). -/
noncomputable def stateAt (learning_rate : ℝ) (d : Dataset) (m : ℕ) : SgdState :=
  pureRun learning_rate m 0 (initState d)

/-- Iteration `j` triggers the break: at the end of its body,
`patience <= iter` holds with the patience value of that moment. -/
def stopsAt (learning_rate : ℝ) (d : Dataset) (j : ℕ) : Prop :=
  (stateAt learning_rate d (j + 1)).patience ≤ j

/-- `W` with entry `(j, k)` replaced by `t` (the direction in which the
partial derivative in `W j k` is taken). -/
noncomputable def setW {nIn K : ℕ} (W : Fin nIn → Fin K → ℝ) (j : Fin nIn)
    (k : Fin K) (t : ℝ) : Fin nIn → Fin K → ℝ :=
  fun m k' => if m = j ∧ k' = k then t else W m k'

/-- `b` with entry `k` replaced by `t`. -/
noncomputable def setB {K : ℕ} (b : Fin K → ℝ) (k : Fin K) (t : ℝ) :
    Fin K → ℝ :=
  fun k' => if k' = k then t else b k'

/-! ### Concrete instances used by the witnesses -/

/-- A concrete dataset of all-zero arrays with empty splits. -/
noncomputable def dC : Dataset :=
  { nTrain := 0, nValid := 0, nTest := 0
    trainX := fun _ _ => 0, trainY := fun _ => 0
    validX := fun _ _ => 0, validY := fun _ => 0
    testX := fun _ _ => 0, testY := fun _ => 0 }

/-- The concrete dataset with a validation split of 501 examples. -/
noncomputable def dC501 : Dataset := { dC with nValid := 501 }

/-- A concrete one-example batch of zero features. -/
noncomputable def xC : Fin 1 → Fin n_in → ℝ := fun _ _ => 0

/-- A concrete zero weight matrix. -/
noncomputable def WC : Fin n_in → Fin n_out → ℝ := fun _ _ => 0

/-- A concrete zero bias vector. -/
noncomputable def bC : Fin n_out → ℝ := fun _ => 0

/-- A concrete one-example label vector. -/
def yC : Fin 1 → Fin n_out := fun _ => 0

/-- A concrete strictly positive 1×1 probability matrix. -/
noncomputable def PC : Fin 1 → Fin 1 → ℝ := fun _ _ => 1

/-- A concrete label vector for `PC`. -/
def yC1 : Fin 1 → Fin 1 := fun _ => 0

/-- A concrete prediction vector for `errors`. -/
def predC : Fin 1 → ℤ := fun _ => 0

/-- A concrete true-label vector disagreeing with `predC` everywhere. -/
def trueC : Fin 1 → ℤ := fun _ => 1

/-- Invariant: the recorded best validation loss, when finite, is
nonnegative (it is a mean of 0/1 error indicators). -/
def bestInv (s : SgdState) : Prop := ∀ v, s.best = some v → 0 ≤ v

/-! ## Theorems -/

theorem Tmean_nonneg {n : ℕ} (v : Fin n → ℝ) (h : ∀ i, 0 ≤ v i) :
    0 ≤ Tmean v :=
  div_nonneg (Finset.sum_nonneg fun i _ => h i) (Nat.cast_nonneg n)

/-- Claim C9: the number of mini-batches per split is the floor of the split
size divided by the batch size; every validation row the loop reads lies
strictly below `n_valid_batches * batch_size` (which is at most the split
size), so rows of an incomplete final batch are never visited; and a
validation split of 501 examples yields exactly one mini-batch. -/
theorem minibatch_counts_floor :
    (∀ d : Dataset,
      n_minibatches d = d.nTrain / batch_size
      ∧ n_valid_batches d = d.nValid / batch_size
      ∧ n_test_batches d = d.nTest / batch_size
      ∧ n_valid_batches d * batch_size ≤ d.nValid
      ∧ (∀ m, visitedValidation d m → m < n_valid_batches d * batch_size))
    ∧ n_valid_batches dC501 = 1 := by
  constructor
  · intro d
    refine ⟨rfl, rfl, rfl, Nat.div_mul_le_self _ _, ?_⟩
    rintro m ⟨i, hi, j, hj, rfl⟩
    have h1 : i * batch_size + j < (i + 1) * batch_size := by
      rw [Nat.succ_mul]
      omega
    exact h1.trans_le (Nat.mul_le_mul_right _ hi)
  · rfl

/-- Witness for C9: the concrete 501-example validation split. -/
theorem minibatch_counts_floor_witness : n_valid_batches dC501 = 1 :=
  minibatch_counts_floor.2

/-- Claim C10: the parameters are initialised to all zeros, and the run is
deterministic: two executions on identical dataset arrays and identical
hyperparameters follow identical state trajectories and end in identical
final states (in particular identical `best_validation_loss` and
`test_score`); the embedding of the source contains no source of
randomness. -/
theorem zero_init_deterministic (d₁ d₂ : Dataset) (lr₁ lr₂ : ℝ)
    (n₁ n₂ : ℕ) (hd : d₁ = d₂) (hlr : lr₁ = lr₂) (hn : n₁ = n₂) :
    (initState d₁).W = (fun _ _ => 0)
    ∧ (initState d₁).b = (fun _ => 0)
    ∧ (∀ m, stateAt lr₁ d₁ m = stateAt lr₂ d₂ m)
    ∧ sgd_optimization_mnist lr₁ n₁ d₁ = sgd_optimization_mnist lr₂ n₂ d₂ := by
  subst hd; subst hlr; subst hn
  exact ⟨rfl, rfl, fun _ => rfl, rfl⟩

/-- Witness for C10 at a concrete dataset and hyperparameters. -/
theorem zero_init_deterministic_witness :
    sgd_optimization_mnist 0 0 dC = sgd_optimization_mnist 0 0 dC :=
  (zero_init_deterministic dC dC 0 0 0 0 rfl rfl rfl).2.2.2

/-- Claim C4: one call of the compiled training step returns the negative
log-likelihood computed with the parameter values as they were before the
update, and changes no component of the state other than `W` and `b`: the
dataset arrays, the patience counter, the best validation loss, the test
score and the ghost update counter are all unchanged. -/
theorem train_model_frame (lr : ℝ) (s : SgdState) (offset : ℕ) :
    (train_model lr s offset).1
      = negative_log_likelihood
          (p_y_given_x (trainBatchX s.data offset) s.W s.b)
          (trainBatchY s.data offset)
    ∧ (train_model lr s offset).2.data = s.data
    ∧ (train_model lr s offset).2.patience = s.patience
    ∧ (train_model lr s offset).2.best = s.best
    ∧ (train_model lr s offset).2.testScore = s.testScore
    ∧ (train_model lr s offset).2.nUpdates = s.nUpdates :=
  ⟨rfl, rfl, rfl, rfl, rfl, rfl⟩

/-- Witness for C4 at a concrete state and offset. -/
theorem train_model_frame_witness :
    (train_model 0 (initState dC) 0).2.patience = (initState dC).patience :=
  (train_model_frame 0 (initState dC) 0).2.2.1

/-- Claim C7: for a probability matrix with strictly positive entries and a
label vector of valid class indices, `negative_log_likelihood` is the mean
over the batch of `-log(P[i, y[i]])`. -/
theorem negative_log_likelihood_mean {n K : ℕ} (P : Fin n → Fin K → ℝ)
    (y : Fin n → Fin K) (hP : ∀ i j, 0 < P i j) (hn : 0 < n) :
    negative_log_likelihood P y = Tmean fun i => -(Real.log (P i (y i))) := by
  unfold negative_log_likelihood Tmean
  rw [Finset.sum_neg_distrib, neg_div]

/-- Witness for C7: a concrete strictly positive probability matrix. -/
theorem negative_log_likelihood_mean_witness :
    negative_log_likelihood PC yC1 = Tmean fun i => -(Real.log (PC i (yC1 i))) :=
  negative_log_likelihood_mean PC yC1 (fun i j => by norm_num [PC]) (by decide)

/-- Claim C8 (failing input): when the label argument has ndim 2 while
`y_pred` has ndim 1, the source reaches
`raise TypeError(..., ('y', target.type, ...))` but `target` is unbound, so
the call fails with `NameError`, not with the `TypeError` the specification
promises.  The dtype guard and the mean-of-mismatches value behave as
specified: non-integer dtype raises `NotImplementedError`, total agreement
gives error rate 0 and total disagreement gives error rate 1. -/
theorem errors_ndim_mismatch_raises_nameError :
    errors 2 Dtype.int32 predC trueC = Except.error PyError.nameError
    ∧ errors 2 Dtype.int32 predC trueC ≠ Except.error PyError.typeError
    ∧ errors 1 Dtype.float64 predC trueC
        = Except.error PyError.notImplementedError
    ∧ errors 1 Dtype.int32 predC predC = Except.ok 0
    ∧ errors 1 Dtype.int32 predC trueC = Except.ok 1 := by
  refine ⟨rfl, ?_, rfl, ?_, ?_⟩
  · intro h
    simp only [errors, if_pos (by decide : (2 : ℕ) ≠ 1)] at h
    exact absurd (Except.error.inj h) (by decide)
  · simp [errors, Tmean, predC, Dtype.isInt]
  · simp [errors, Tmean, predC, trueC, Dtype.isInt]

theorem sum_exp_pos {K : ℕ} (hK : 0 < K) (z : Fin K → ℝ) :
    0 < ∑ j, Real.exp (z j) :=
  Finset.sum_pos (fun j _ => Real.exp_pos _) ⟨⟨0, hK⟩, Finset.mem_univ _⟩

theorem softmax_pos {K : ℕ} (hK : 0 < K) (z : Fin K → ℝ) (k : Fin K) :
    0 < softmax z k :=
  div_pos (Real.exp_pos _) (sum_exp_pos hK z)

theorem softmax_sum_one {K : ℕ} (hK : 0 < K) (z : Fin K → ℝ) :
    ∑ k, softmax z k = 1 := by
  unfold softmax
  rw [← Finset.sum_div]
  exact div_self (ne_of_gt (sum_exp_pos hK z))

theorem softmax_lt_one {K : ℕ} (hK : 1 < K) (z : Fin K → ℝ) (k : Fin K) :
    softmax z k < 1 := by
  unfold softmax
  rw [div_lt_one (sum_exp_pos (by omega) z)]
  obtain ⟨k', _, hk'⟩ :=
    Finset.exists_ne_of_one_lt_card
      (by simpa using hK : 1 < (Finset.univ : Finset (Fin K)).card) k
  exact Finset.single_lt_sum hk' (Finset.mem_univ k) (Finset.mem_univ k')
    (Real.exp_pos _) (fun _ _ _ => (Real.exp_pos _).le)

/-- Claim C5: `p_y_given_x` is the row-wise softmax of the affine transform
`batch·W + b`, and for every batch and every parameter values each row sums
to 1 and every entry lies strictly between 0 and 1 (there are
`n_out = 10 ≥ 2` classes). -/
theorem p_y_given_x_softmax_rows {n : ℕ} (x : Fin n → Fin n_in → ℝ)
    (W : Fin n_in → Fin n_out → ℝ) (b : Fin n_out → ℝ) :
    (∀ i k, p_y_given_x x W b i k = softmax (zRow x W b i) k)
    ∧ (∀ i, ∑ k, p_y_given_x x W b i k = 1)
    ∧ (∀ i k, 0 < p_y_given_x x W b i k ∧ p_y_given_x x W b i k < 1) :=
  ⟨fun _ _ => rfl,
   fun i => softmax_sum_one (by decide) (zRow x W b i),
   fun i k => ⟨softmax_pos (by decide) (zRow x W b i) k,
               softmax_lt_one (by decide) (zRow x W b i) k⟩⟩

/-- Witness for C5 at concrete zero inputs. -/
theorem p_y_given_x_softmax_rows_witness :
    ∑ k, p_y_given_x xC WC bC 0 k = 1 :=
  (p_y_given_x_softmax_rows xC WC bC).2.1 0

theorem argmaxAux_spec {K : ℕ} (v : Fin K → ℝ) :
    ∀ (l : List (Fin K)) (cur : Fin K), (∀ a ∈ l, cur ≤ a) →
      l.Pairwise (· ≤ ·) →
      (argmaxAux v cur l = cur ∨ argmaxAux v cur l ∈ l)
      ∧ v cur ≤ v (argmaxAux v cur l)
      ∧ (∀ a ∈ l, v a ≤ v (argmaxAux v cur l))
      ∧ (v (argmaxAux v cur l) ≤ v cur → argmaxAux v cur l ≤ cur)
      ∧ (∀ a ∈ l, v (argmaxAux v cur l) ≤ v a → argmaxAux v cur l ≤ a) := by
  intro l
  induction l with
  | nil =>
    intro cur _ _
    exact ⟨Or.inl rfl, le_refl _, by simp, fun _ => le_refl _, by simp⟩
  | cons a rest ih =>
    intro cur hle hp
    obtain ⟨hpa, hpr⟩ := List.pairwise_cons.mp hp
    by_cases hva : v cur < v a
    · rw [show argmaxAux v cur (a :: rest)
          = argmaxAux v a rest by rw [argmaxAux, if_pos hva]]
      obtain ⟨hmem, hcur', hmax, hleast₀, hleast⟩ := ih a hpa hpr
      refine ⟨?_, hva.le.trans hcur', ?_, ?_, ?_⟩
      · rcases hmem with h | h
        · exact Or.inr (by rw [h]; exact List.mem_cons_self a rest)
        · exact Or.inr (List.mem_cons_of_mem a h)
      · intro b hb
        rcases List.mem_cons.mp hb with rfl | hb
        · exact hcur'
        · exact hmax b hb
      · intro h
        exact absurd (hva.trans_le hcur') (not_lt.mpr h)
      · intro b hb
        rcases List.mem_cons.mp hb with rfl | hb
        · exact hleast₀
        · exact hleast b hb
    · rw [show argmaxAux v cur (a :: rest)
          = argmaxAux v cur rest by rw [argmaxAux, if_neg hva]]
      have hvac : v a ≤ v cur := not_lt.mp hva
      have hler : ∀ b ∈ rest, cur ≤ b := fun b hb =>
        hle b (List.mem_cons_of_mem a hb)
      obtain ⟨hmem, hcur', hmax, hleast₀, hleast⟩ := ih cur hler hpr
      refine ⟨?_, hcur', ?_, hleast₀, ?_⟩
      · rcases hmem with h | h
        · exact Or.inl h
        · exact Or.inr (List.mem_cons_of_mem a h)
      · intro b hb
        rcases List.mem_cons.mp hb with rfl | hb
        · exact hvac.trans hcur'
        · exact hmax b hb
      · intro b hb
        rcases List.mem_cons.mp hb with rfl | hb
        · intro h
          exact (hleast₀ (h.trans hvac)).trans (hle b (List.mem_cons_self b rest))
        · exact hleast b hb

theorem argmax_spec {K : ℕ} (v : Fin (K + 1) → ℝ) :
    (∀ k, v k ≤ v (argmax v))
    ∧ (∀ k, v (argmax v) ≤ v k → argmax v ≤ k) := by
  obtain ⟨_, _, hmax, _, hleast⟩ :=
    argmaxAux_spec v (List.finRange (K + 1)) 0 (fun a _ => Fin.zero_le a)
      ((List.pairwise_lt_finRange (K + 1)).imp le_of_lt)
  exact ⟨fun k => hmax k (List.mem_finRange k),
         fun k => hleast k (List.mem_finRange k)⟩

/-- Claim C6: the predicted label of each example is a column index of
maximal probability in the corresponding row of `p_y_given_x`, and any
column attaining the maximum has index at least `y_pred i`, i.e. ties are
broken towards the lowest class index. -/
theorem y_pred_first_argmax {n : ℕ} (x : Fin n → Fin n_in → ℝ)
    (W : Fin n_in → Fin n_out → ℝ) (b : Fin n_out → ℝ) (i : Fin n) :
    (∀ k, p_y_given_x x W b i k
        ≤ p_y_given_x x W b i (y_pred (K := 9) x W b i))
    ∧ (∀ k, p_y_given_x x W b i (y_pred (K := 9) x W b i)
        ≤ p_y_given_x x W b i k → y_pred (K := 9) x W b i ≤ k) :=
  argmax_spec (p_y_given_x x W b i)

/-- Witness for C6 at concrete zero inputs. -/
theorem y_pred_first_argmax_witness :
    p_y_given_x xC WC bC 0 0
      ≤ p_y_given_x xC WC bC 0 (y_pred (K := 9) xC WC bC 0) :=
  (y_pred_first_argmax xC WC bC 0).1 0

/-! ### The early-stopping loop -/

theorem validate_model_nonneg (s : SgdState) (offset : ℕ) :
    0 ≤ validate_model s offset := by
  refine Tmean_nonneg _ fun i => ?_
  dsimp only
  split <;> norm_num

theorem this_validation_loss_nonneg (s : SgdState) :
    0 ≤ this_validation_loss s :=
  Tmean_nonneg _ fun i => validate_model_nonneg s _

theorem trainStep_best (lr : ℝ) (iter : ℕ) (s : SgdState) :
    (trainStep lr iter s).best = s.best := rfl

theorem trainStep_patience (lr : ℝ) (iter : ℕ) (s : SgdState) :
    (trainStep lr iter s).patience = s.patience := rfl

theorem trainStep_data (lr : ℝ) (iter : ℕ) (s : SgdState) :
    (trainStep lr iter s).data = s.data := rfl

theorem doValidation_data (s : SgdState) (iter : ℕ) :
    (doValidation s iter).data = s.data := by
  unfold doValidation
  split_ifs <;> rfl

theorem doValidation_nUpdates (s : SgdState) (iter : ℕ) :
    (doValidation s iter).nUpdates = s.nUpdates := by
  unfold doValidation
  split_ifs <;> rfl

theorem doValidation_patience_mono (s : SgdState) (iter : ℕ) :
    s.patience ≤ (doValidation s iter).patience := by
  unfold doValidation
  split_ifs
  · exact le_max_left _ _
  · exact le_refl _
  · exact le_refl _

theorem doValidation_bestInv (s : SgdState) (iter : ℕ) (h : bestInv s) :
    bestInv (doValidation s iter) := by
  unfold doValidation
  split_ifs
  · intro v hv
    have hv' : some (this_validation_loss s) = some v := hv
    cases Option.some.inj hv'
    exact this_validation_loss_nonneg s
  · intro v hv
    have hv' : some (this_validation_loss s) = some v := hv
    cases Option.some.inj hv'
    exact this_validation_loss_nonneg s
  · exact h

theorem iterBody_data (lr : ℝ) (iter : ℕ) (s : SgdState) :
    (iterBody lr iter s).data = s.data := by
  unfold iterBody
  split_ifs
  · rw [doValidation_data]; rfl
  · rfl

theorem iterBody_nUpdates (lr : ℝ) (iter : ℕ) (s : SgdState) :
    (iterBody lr iter s).nUpdates = s.nUpdates + 1 := by
  unfold iterBody
  split_ifs
  · rw [doValidation_nUpdates]; rfl
  · rfl

theorem iterBody_bestInv (lr : ℝ) (iter : ℕ) (s : SgdState)
    (h : bestInv s) : bestInv (iterBody lr iter s) := by
  unfold iterBody
  split_ifs
  · exact doValidation_bestInv _ _ (fun v hv => h v hv)
  · exact fun v hv => h v hv

theorem iterBody_patience_mono (lr : ℝ) (iter : ℕ) (s : SgdState) :
    s.patience ≤ (iterBody lr iter s).patience := by
  unfold iterBody
  split_ifs
  · exact doValidation_patience_mono (trainStep lr iter s) iter
  · exact le_refl _

theorem pureRun_zero (lr : ℝ) (i : ℕ) (s : SgdState) :
    pureRun lr 0 i s = s := rfl

theorem pureRun_succ (lr : ℝ) (m i : ℕ) (s : SgdState) :
    pureRun lr (m + 1) i s = pureRun lr m (i + 1) (iterBody lr i s) := rfl

theorem pureRun_succ_last (lr : ℝ) :
    ∀ (m i : ℕ) (s : SgdState),
      pureRun lr (m + 1) i s = iterBody lr (i + m) (pureRun lr m i s) := by
  intro m
  induction m with
  | zero => intro i s; rfl
  | succ m ih =>
    intro i s
    rw [pureRun_succ, ih (i + 1), ← pureRun_succ]
    have h : i + 1 + m = i + (m + 1) := by omega
    rw [h]

theorem stateAt_succ (lr : ℝ) (d : Dataset) (m : ℕ) :
    stateAt lr d (m + 1) = iterBody lr m (stateAt lr d m) := by
  unfold stateAt
  rw [pureRun_succ_last, Nat.zero_add]

theorem stateAt_data (lr : ℝ) (d : Dataset) :
    ∀ m, (stateAt lr d m).data = d := by
  intro m
  induction m with
  | zero => rfl
  | succ m ih => rw [stateAt_succ, iterBody_data, ih]

theorem stateAt_nUpdates (lr : ℝ) (d : Dataset) :
    ∀ m, (stateAt lr d m).nUpdates = m := by
  intro m
  induction m with
  | zero => rfl
  | succ m ih => rw [stateAt_succ, iterBody_nUpdates, ih]

theorem stateAt_bestInv (lr : ℝ) (d : Dataset) :
    ∀ m, bestInv (stateAt lr d m) := by
  intro m
  induction m with
  | zero => intro v hv; cases hv
  | succ m ih => rw [stateAt_succ]; exact iterBody_bestInv lr m _ ih

theorem sgdLoop_patience_mono (lr : ℝ) :
    ∀ (fuel iter : ℕ) (s : SgdState),
      s.patience ≤ (sgdLoop lr fuel iter s).patience := by
  intro fuel
  induction fuel with
  | zero => intro iter s; exact le_refl _
  | succ fuel ih =>
    intro iter s
    rw [sgdLoop]
    split_ifs
    · exact iterBody_patience_mono lr iter s
    · exact (iterBody_patience_mono lr iter s).trans (ih (iter + 1) _)

theorem doValidation_patience_char (s : SgdState) (iter : ℕ)
    (hbest : bestInv s) :
    (ltInf (this_validation_loss s) (mulInf s.best improvement_threshold)
      → (doValidation s iter).patience
          = max s.patience (iter * patience_increase))
    ∧ (¬ ltInf (this_validation_loss s) (mulInf s.best improvement_threshold)
      → (doValidation s iter).patience = s.patience) := by
  constructor
  · intro h
    have houter : ltInf (this_validation_loss s) s.best := by
      cases hb : s.best with
      | none => exact trivial
      | some v =>
        have hv := hbest v hb
        rw [hb] at h
        have h' : this_validation_loss s < v * improvement_threshold := h
        show this_validation_loss s < v
        calc this_validation_loss s < v * improvement_threshold := h'
          _ ≤ v := by
            have h1 : improvement_threshold ≤ 1 := by
              norm_num [improvement_threshold]
            exact mul_le_of_le_one_right hv h1
    unfold doValidation
    rw [if_pos houter, if_pos h]
  · intro h
    unfold doValidation
    by_cases houter : ltInf (this_validation_loss s) s.best
    · rw [if_pos houter, if_neg h]
    · rw [if_neg houter]

theorem iterBody_patience_char (lr : ℝ) (iter : ℕ) (s : SgdState)
    (hbest : bestInv s) :
    (((iter + 1) % validation_frequency s.data = 0
        ∧ ltInf (this_validation_loss (trainStep lr iter s))
            (mulInf s.best improvement_threshold))
      → (iterBody lr iter s).patience
          = max s.patience (iter * patience_increase))
    ∧ ((¬((iter + 1) % validation_frequency s.data = 0
        ∧ ltInf (this_validation_loss (trainStep lr iter s))
            (mulInf s.best improvement_threshold)))
      → (iterBody lr iter s).patience = s.patience) := by
  by_cases hval : (iter + 1) % validation_frequency s.data = 0
  · have hbody : iterBody lr iter s = doValidation (trainStep lr iter s) iter := by
      unfold iterBody
      rw [if_pos hval]
    have hchar := doValidation_patience_char (trainStep lr iter s) iter
      (fun v hv => hbest v hv)
    constructor
    · rintro ⟨-, himp⟩
      rw [hbody, hchar.1 himp]
      rfl
    · intro hno
      have hinner : ¬ ltInf (this_validation_loss (trainStep lr iter s))
          (mulInf s.best improvement_threshold) := fun hi => hno ⟨hval, hi⟩
      rw [hbody, hchar.2 hinner]
      rfl
  · have hbody : iterBody lr iter s = trainStep lr iter s := by
      unfold iterBody
      rw [if_neg hval]
    constructor
    · rintro ⟨h, -⟩
      exact absurd h hval
    · intro _
      rw [hbody]
      rfl

/-- Claim C2: the patience counter starts at 5000, is monotonically
non-decreasing along the whole run, and across each iteration of the run it
is reassigned, to `max(patience, iter * patience_increase)`, exactly at a
validation check whose loss is strictly below
`best_validation_loss * improvement_threshold`; at every other iteration it
is unchanged. -/
theorem patience_monotone_and_update (lr : ℝ) (d : Dataset) :
    (initState d).patience = 5000
    ∧ (∀ (fuel iter : ℕ) (s : SgdState),
        s.patience ≤ (sgdLoop lr fuel iter s).patience)
    ∧ (∀ m : ℕ,
        (((m + 1) % validation_frequency d = 0
            ∧ ltInf (this_validation_loss (trainStep lr m (stateAt lr d m)))
                (mulInf (stateAt lr d m).best improvement_threshold))
          → (stateAt lr d (m + 1)).patience
              = max (stateAt lr d m).patience (m * patience_increase))
        ∧ ((¬((m + 1) % validation_frequency d = 0
            ∧ ltInf (this_validation_loss (trainStep lr m (stateAt lr d m)))
                (mulInf (stateAt lr d m).best improvement_threshold)))
          → (stateAt lr d (m + 1)).patience = (stateAt lr d m).patience)) := by
  refine ⟨rfl, sgdLoop_patience_mono lr, ?_⟩
  intro m
  have hchar := iterBody_patience_char lr m (stateAt lr d m)
    (stateAt_bestInv lr d m)
  rw [stateAt_data lr d m] at hchar
  rw [stateAt_succ]
  exact hchar

/-- Witness for C2 at a concrete run. -/
theorem patience_monotone_and_update_witness :
    (initState dC).patience = 5000 :=
  (patience_monotone_and_update 0 dC).1

/-- The loop with break either exits at the first iteration whose
end-of-body patience check fires, or runs out of fuel; in both cases the
final state is the corresponding state of the unbroken iteration. -/
theorem sgdLoop_char (lr : ℝ) :
    ∀ (fuel i : ℕ) (s : SgdState),
      (∃ m, m < fuel ∧ (pureRun lr (m + 1) i s).patience ≤ i + m
        ∧ (∀ m', m' < m → ¬((pureRun lr (m' + 1) i s).patience ≤ i + m'))
        ∧ sgdLoop lr fuel i s = pureRun lr (m + 1) i s)
      ∨ ((∀ m, m < fuel → ¬((pureRun lr (m + 1) i s).patience ≤ i + m))
        ∧ sgdLoop lr fuel i s = pureRun lr fuel i s) := by
  intro fuel
  induction fuel with
  | zero =>
    intro i s
    exact Or.inr ⟨fun m h => absurd h (Nat.not_lt_zero m), rfl⟩
  | succ fuel ih =>
    intro i s
    by_cases hstop : (iterBody lr i s).patience ≤ i
    · left
      refine ⟨0, Nat.succ_pos fuel, by simpa using hstop, ?_, ?_⟩
      · intro m' h
        exact absurd h (Nat.not_lt_zero m')
      · rw [sgdLoop, if_pos hstop]
        rfl
    · rcases ih (i + 1) (iterBody lr i s) with
        ⟨m, hm, hst, hmin, heq⟩ | ⟨hall, heq⟩
      · left
        refine ⟨m + 1, Nat.succ_lt_succ hm, ?_, ?_, ?_⟩
        · rw [pureRun_succ]
          have h2 : i + 1 + m = i + (m + 1) := by omega
          rw [← h2]
          exact hst
        · intro m' hm'
          cases m' with
          | zero =>
            intro hc
            exact hstop (by simpa using hc)
          | succ m'' =>
            intro hc
            rw [pureRun_succ] at hc
            have hm'' : m'' < m := by omega
            have hidx : i + 1 + m'' = i + (m'' + 1) := by omega
            exact hmin m'' hm'' (by rw [hidx]; exact hc)
        · rw [sgdLoop, if_neg hstop, heq]
          exact (pureRun_succ lr (m + 1) i s).symm
      · right
        constructor
        · intro m hm'
          cases m with
          | zero =>
            intro hc
            exact hstop (by simpa using hc)
          | succ m'' =>
            intro hc
            rw [pureRun_succ] at hc
            have hm'' : m'' < fuel := by omega
            have hidx : i + 1 + m'' = i + (m'' + 1) := by omega
            exact hall m'' hm'' (by rw [hidx]; exact hc)
        · rw [sgdLoop, if_neg hstop, heq]
          exact (pureRun_succ lr fuel i s).symm

/-- Claim C1: every run either stops at the end of the first iteration `j`
whose end-of-body patience (the value of that moment) satisfies
`patience <= j`, having then performed exactly `j + 1` training updates, or
— when no iteration ever satisfies the check — completes all
`n_iter * n_minibatches` iterations; no training update is performed after
the stopping iteration. -/
theorem training_loop_stopping (lr : ℝ) (d : Dataset) (n_iter : ℕ) :
    (∃ j, j < n_iter * n_minibatches d ∧ stopsAt lr d j
      ∧ (∀ k, k < j → ¬ stopsAt lr d k)
      ∧ sgd_optimization_mnist lr n_iter d = stateAt lr d (j + 1)
      ∧ (sgd_optimization_mnist lr n_iter d).nUpdates = j + 1)
    ∨ ((∀ k, k < n_iter * n_minibatches d → ¬ stopsAt lr d k)
      ∧ sgd_optimization_mnist lr n_iter d
          = stateAt lr d (n_iter * n_minibatches d)
      ∧ (sgd_optimization_mnist lr n_iter d).nUpdates
          = n_iter * n_minibatches d) := by
  rcases sgdLoop_char lr (n_iter * n_minibatches d) 0 (initState d) with
    ⟨m, hm, hst, hmin, heq⟩ | ⟨hall, heq⟩
  · left
    refine ⟨m, hm, ?_, ?_, heq, ?_⟩
    · show (stateAt lr d (m + 1)).patience ≤ m
      have h := hst
      rwa [Nat.zero_add] at h
    · intro k hk hc
      exact hmin k hk (by rw [Nat.zero_add]; exact hc)
    · show (sgdLoop lr (n_iter * n_minibatches d) 0 (initState d)).nUpdates
        = m + 1
      rw [heq]
      exact stateAt_nUpdates lr d (m + 1)
  · right
    refine ⟨?_, heq, ?_⟩
    · intro k hk hc
      exact hall k hk (by rw [Nat.zero_add]; exact hc)
    · show (sgdLoop lr (n_iter * n_minibatches d) 0 (initState d)).nUpdates
        = n_iter * n_minibatches d
      rw [heq]
      exact stateAt_nUpdates lr d (n_iter * n_minibatches d)

/-- Witness for C1 at a concrete run with zero total iterations. -/
theorem training_loop_stopping_witness :
    (∃ j, j < 0 * n_minibatches dC ∧ stopsAt 0 dC j
      ∧ (∀ k, k < j → ¬ stopsAt 0 dC k)
      ∧ sgd_optimization_mnist 0 0 dC = stateAt 0 dC (j + 1)
      ∧ (sgd_optimization_mnist 0 0 dC).nUpdates = j + 1)
    ∨ ((∀ k, k < 0 * n_minibatches dC → ¬ stopsAt 0 dC k)
      ∧ sgd_optimization_mnist 0 0 dC = stateAt 0 dC (0 * n_minibatches dC)
      ∧ (sgd_optimization_mnist 0 0 dC).nUpdates = 0 * n_minibatches dC) :=
  training_loop_stopping 0 dC 0

/-! ### The gradient of the negative log-likelihood -/

theorem setW_self {nIn K : ℕ} (W : Fin nIn → Fin K → ℝ) (j : Fin nIn)
    (k : Fin K) : setW W j k (W j k) = W := by
  funext m k'
  unfold setW
  split_ifs with h
  · rw [h.1, h.2]
  · rfl

theorem setB_self {K : ℕ} (b : Fin K → ℝ) (k : Fin K) :
    setB b k (b k) = b := by
  funext k'
  unfold setB
  split_ifs with h
  · rw [h]
  · rfl

theorem hasDerivAt_zRow_setW {n nIn K : ℕ} (x : Fin n → Fin nIn → ℝ)
    (W : Fin nIn → Fin K → ℝ) (b : Fin K → ℝ) (j : Fin nIn) (k₀ : Fin K)
    (i : Fin n) (k : Fin K) (t : ℝ) :
    HasDerivAt (fun u => zRow x (setW W j k₀ u) b i k)
      (if k = k₀ then x i j else 0) t := by
  have hsum : HasDerivAt (fun u => ∑ m, x i m * setW W j k₀ u m k)
      (∑ m, if m = j ∧ k = k₀ then x i m else 0) t := by
    apply HasDerivAt.sum
    intro m _
    by_cases hm : m = j ∧ k = k₀
    · have hfun : (fun u => x i m * setW W j k₀ u m k)
          = fun u => x i m * u := by
        funext u
        rw [show setW W j k₀ u m k = u from by unfold setW; rw [if_pos hm]]
      rw [hfun, if_pos hm]
      simpa using (hasDerivAt_id t).const_mul (x i m)
    · have hfun : (fun u => x i m * setW W j k₀ u m k)
          = fun _ => x i m * W m k := by
        funext u
        rw [show setW W j k₀ u m k = W m k from by unfold setW; rw [if_neg hm]]
      rw [hfun, if_neg hm]
      exact hasDerivAt_const t _
  have hval : (∑ m, if m = j ∧ k = k₀ then x i m else 0)
      = if k = k₀ then x i j else 0 := by
    by_cases hk : k = k₀
    · simp [hk, Finset.sum_ite_eq']
    · simp [hk]
  rw [hval] at hsum
  exact hsum.add_const (b k)

theorem hasDerivAt_sumExp_setW {n nIn K : ℕ} (x : Fin n → Fin nIn → ℝ)
    (W : Fin nIn → Fin K → ℝ) (b : Fin K → ℝ) (j : Fin nIn) (k₀ : Fin K)
    (i : Fin n) (t : ℝ) :
    HasDerivAt (fun u => ∑ k, Real.exp (zRow x (setW W j k₀ u) b i k))
      (Real.exp (zRow x (setW W j k₀ t) b i k₀) * x i j) t := by
  have h : HasDerivAt (fun u => ∑ k, Real.exp (zRow x (setW W j k₀ u) b i k))
      (∑ k, Real.exp (zRow x (setW W j k₀ t) b i k)
        * (if k = k₀ then x i j else 0)) t := by
    apply HasDerivAt.sum
    intro k _
    exact (hasDerivAt_zRow_setW x W b j k₀ i k t).exp
  have hval : (∑ k, Real.exp (zRow x (setW W j k₀ t) b i k)
      * (if k = k₀ then x i j else 0))
      = Real.exp (zRow x (setW W j k₀ t) b i k₀) * x i j := by
    simp [mul_ite, mul_zero, Finset.sum_ite_eq']
  rw [hval] at h
  exact h

theorem log_p_y_given_x {n nIn K : ℕ} (x : Fin n → Fin nIn → ℝ)
    (W : Fin nIn → Fin K → ℝ) (b : Fin K → ℝ) (i : Fin n) (k : Fin K) :
    Real.log (p_y_given_x x W b i k)
      = zRow x W b i k - Real.log (∑ j, Real.exp (zRow x W b i j)) := by
  unfold p_y_given_x softmax
  rw [Real.log_div (Real.exp_ne_zero _)
      (ne_of_gt (sum_exp_pos (Fin.pos k) _)), Real.log_exp]

theorem hasDerivAt_logP_setW {n nIn K : ℕ} (x : Fin n → Fin nIn → ℝ)
    (y : Fin n → Fin K) (W : Fin nIn → Fin K → ℝ) (b : Fin K → ℝ)
    (j : Fin nIn) (k₀ : Fin K) (i : Fin n) (t : ℝ) :
    HasDerivAt (fun u => Real.log (p_y_given_x x (setW W j k₀ u) b i (y i)))
      ((if y i = k₀ then x i j else 0)
        - Real.exp (zRow x (setW W j k₀ t) b i k₀) * x i j
          / ∑ k, Real.exp (zRow x (setW W j k₀ t) b i k)) t := by
  have hfun : (fun u => Real.log (p_y_given_x x (setW W j k₀ u) b i (y i)))
      = fun u => zRow x (setW W j k₀ u) b i (y i)
          - Real.log (∑ k, Real.exp (zRow x (setW W j k₀ u) b i k)) := by
    funext u
    exact log_p_y_given_x x (setW W j k₀ u) b i (y i)
  rw [hfun]
  have hS : (∑ k, Real.exp (zRow x (setW W j k₀ t) b i k)) ≠ 0 :=
    ne_of_gt (sum_exp_pos (Fin.pos (y i)) _)
  exact (hasDerivAt_zRow_setW x W b j k₀ i (y i) t).sub
    ((hasDerivAt_sumExp_setW x W b j k₀ i t).log hS)

theorem hasDerivAt_nll_setW {n nIn K : ℕ} (x : Fin n → Fin nIn → ℝ)
    (y : Fin n → Fin K) (W : Fin nIn → Fin K → ℝ) (b : Fin K → ℝ)
    (j : Fin nIn) (k₀ : Fin K) (t : ℝ) :
    HasDerivAt
      (fun u => negative_log_likelihood (p_y_given_x x (setW W j k₀ u) b) y)
      (g_W x y (setW W j k₀ t) b j k₀) t := by
  have hsum : HasDerivAt
      (fun u => ∑ i, Real.log (p_y_given_x x (setW W j k₀ u) b i (y i)))
      (∑ i, ((if y i = k₀ then x i j else 0)
        - Real.exp (zRow x (setW W j k₀ t) b i k₀) * x i j
          / ∑ k, Real.exp (zRow x (setW W j k₀ t) b i k))) t := by
    apply HasDerivAt.sum
    intro i _
    exact hasDerivAt_logP_setW x y W b j k₀ i t
  have h := (hsum.div_const (n : ℝ)).neg
  have hval : -((∑ i, ((if y i = k₀ then x i j else 0)
      - Real.exp (zRow x (setW W j k₀ t) b i k₀) * x i j
        / ∑ k, Real.exp (zRow x (setW W j k₀ t) b i k))) / (n : ℝ))
      = g_W x y (setW W j k₀ t) b j k₀ := by
    unfold g_W oneHot
    rw [← neg_div, ← Finset.sum_neg_distrib]
    refine congrArg (fun A => A / (n : ℝ))
      (Finset.sum_congr rfl fun i _ => ?_)
    simp only [p_y_given_x, softmax]
    split_ifs <;> ring
  rw [hval] at h
  exact h

theorem hasDerivAt_zRow_setB {n nIn K : ℕ} (x : Fin n → Fin nIn → ℝ)
    (W : Fin nIn → Fin K → ℝ) (b : Fin K → ℝ) (k₀ : Fin K)
    (i : Fin n) (k : Fin K) (t : ℝ) :
    HasDerivAt (fun u => zRow x W (setB b k₀ u) i k)
      (if k = k₀ then 1 else 0) t := by
  have hfun : (fun u => zRow x W (setB b k₀ u) i k)
      = fun u => (∑ m, x i m * W m k) + (if k = k₀ then u else b k) := by
    funext u
    rfl
  rw [hfun]
  by_cases hk : k = k₀
  · simp only [if_pos hk]
    simpa using (hasDerivAt_id t).const_add (∑ m, x i m * W m k)
  · simp only [if_neg hk]
    exact hasDerivAt_const t _

theorem hasDerivAt_sumExp_setB {n nIn K : ℕ} (x : Fin n → Fin nIn → ℝ)
    (W : Fin nIn → Fin K → ℝ) (b : Fin K → ℝ) (k₀ : Fin K)
    (i : Fin n) (t : ℝ) :
    HasDerivAt (fun u => ∑ k, Real.exp (zRow x W (setB b k₀ u) i k))
      (Real.exp (zRow x W (setB b k₀ t) i k₀)) t := by
  have h : HasDerivAt (fun u => ∑ k, Real.exp (zRow x W (setB b k₀ u) i k))
      (∑ k, Real.exp (zRow x W (setB b k₀ t) i k)
        * (if k = k₀ then 1 else 0)) t := by
    apply HasDerivAt.sum
    intro k _
    exact (hasDerivAt_zRow_setB x W b k₀ i k t).exp
  have hval : (∑ k, Real.exp (zRow x W (setB b k₀ t) i k)
      * (if k = k₀ then (1 : ℝ) else 0))
      = Real.exp (zRow x W (setB b k₀ t) i k₀) := by
    simp [mul_ite, mul_zero, Finset.sum_ite_eq']
  rw [hval] at h
  exact h

theorem hasDerivAt_logP_setB {n nIn K : ℕ} (x : Fin n → Fin nIn → ℝ)
    (y : Fin n → Fin K) (W : Fin nIn → Fin K → ℝ) (b : Fin K → ℝ)
    (k₀ : Fin K) (i : Fin n) (t : ℝ) :
    HasDerivAt (fun u => Real.log (p_y_given_x x W (setB b k₀ u) i (y i)))
      ((if y i = k₀ then 1 else 0)
        - Real.exp (zRow x W (setB b k₀ t) i k₀)
          / ∑ k, Real.exp (zRow x W (setB b k₀ t) i k)) t := by
  have hfun : (fun u => Real.log (p_y_given_x x W (setB b k₀ u) i (y i)))
      = fun u => zRow x W (setB b k₀ u) i (y i)
          - Real.log (∑ k, Real.exp (zRow x W (setB b k₀ u) i k)) := by
    funext u
    exact log_p_y_given_x x W (setB b k₀ u) i (y i)
  rw [hfun]
  have hS : (∑ k, Real.exp (zRow x W (setB b k₀ t) i k)) ≠ 0 :=
    ne_of_gt (sum_exp_pos (Fin.pos (y i)) _)
  exact (hasDerivAt_zRow_setB x W b k₀ i (y i) t).sub
    ((hasDerivAt_sumExp_setB x W b k₀ i t).log hS)

theorem hasDerivAt_nll_setB {n nIn K : ℕ} (x : Fin n → Fin nIn → ℝ)
    (y : Fin n → Fin K) (W : Fin nIn → Fin K → ℝ) (b : Fin K → ℝ)
    (k₀ : Fin K) (t : ℝ) :
    HasDerivAt
      (fun u => negative_log_likelihood (p_y_given_x x W (setB b k₀ u)) y)
      (g_b x y W (setB b k₀ t) k₀) t := by
  have hsum : HasDerivAt
      (fun u => ∑ i, Real.log (p_y_given_x x W (setB b k₀ u) i (y i)))
      (∑ i, ((if y i = k₀ then (1 : ℝ) else 0)
        - Real.exp (zRow x W (setB b k₀ t) i k₀)
          / ∑ k, Real.exp (zRow x W (setB b k₀ t) i k))) t := by
    apply HasDerivAt.sum
    intro i _
    exact hasDerivAt_logP_setB x y W b k₀ i t
  have h := (hsum.div_const (n : ℝ)).neg
  have hval : -((∑ i, ((if y i = k₀ then (1 : ℝ) else 0)
      - Real.exp (zRow x W (setB b k₀ t) i k₀)
        / ∑ k, Real.exp (zRow x W (setB b k₀ t) i k))) / (n : ℝ))
      = g_b x y W (setB b k₀ t) k₀ := by
    unfold g_b oneHot
    rw [← neg_div, ← Finset.sum_neg_distrib]
    refine congrArg (fun A => A / (n : ℝ))
      (Finset.sum_congr rfl fun i _ => ?_)
    simp only [p_y_given_x, softmax]
    split_ifs <;> ring
  rw [hval] at h
  exact h

/-- Claim C3: for every batch `x` with labels `y` (one-hot encoded by
`oneHot`) and parameters `(W, b)`, the partial derivatives of the mean
negative log-likelihood — the quantities the update rule obtains from
`T.grad` — equal the closed forms `g_W = Xᵀ(P - Y_onehot)/batch_size` and
`g_b =` column mean of `P - Y_onehot`, where `P` is the softmax probability
matrix; and one training step replaces `W` by `W - learning_rate * g_W` and
`b` by `b - learning_rate * g_b`. -/
theorem gradient_closed_form_and_update {n nIn K : ℕ}
    (x : Fin n → Fin nIn → ℝ) (y : Fin n → Fin K)
    (W : Fin nIn → Fin K → ℝ) (b : Fin K → ℝ)
    (lr : ℝ) (s : SgdState) (offset : ℕ) :
    (∀ (j : Fin nIn) (k : Fin K),
      HasDerivAt
        (fun t => negative_log_likelihood (p_y_given_x x (setW W j k t) b) y)
        (g_W x y W b j k) (W j k))
    ∧ (∀ k : Fin K,
      HasDerivAt
        (fun t => negative_log_likelihood (p_y_given_x x W (setB b k t)) y)
        (g_b x y W b k) (b k))
    ∧ (train_model lr s offset).2.W
        = (fun j k => s.W j k
            - lr * g_W (trainBatchX s.data offset) (trainBatchY s.data offset)
                s.W s.b j k)
    ∧ (train_model lr s offset).2.b
        = (fun k => s.b k
            - lr * g_b (trainBatchX s.data offset) (trainBatchY s.data offset)
                s.W s.b k) := by
  refine ⟨?_, ?_, rfl, rfl⟩
  · intro j k
    have h := hasDerivAt_nll_setW x y W b j k (W j k)
    rwa [setW_self] at h
  · intro k
    have h := hasDerivAt_nll_setB x y W b k (b k)
    rwa [setB_self] at h

/-- Witness for C3 at concrete zero inputs. -/
theorem gradient_closed_form_and_update_witness :
    HasDerivAt
      (fun t => negative_log_likelihood (p_y_given_x xC (setW WC 0 0 t) bC) yC)
      (g_W xC yC WC bC 0 0) (WC 0 0) :=
  (gradient_closed_form_and_update xC yC WC bC 0 (initState dC) 0).1 0 0

end LogisticSgd
